import Mathlib

/-!
Verification of the RISC-V instruction-set simulator core: a shallow
embedding of the register file, integer divide/remainder executors,
saturating arithmetic, NaN-boxed floating registers, the FP min/max
helper, the load-linked/store-conditional local monitor, the vector
`vadc`/`vrgather` executors, and the breakpoint bookkeeping, together
with proofs of the specified properties.

Machine integers are modelled as `Nat` bit patterns (`x < 2^w`) with
explicit wrap-around, signed views go through `Int`.
-/

/-! ## Basic 64-bit machine-integer views -/

/-- Signed view of a 64-bit pattern (two's complement). -/
def toSigned64 (x : Nat) : Int :=
  if x < 2 ^ 63 then (x : Int) else (x : Int) - 2 ^ 64

/-- Bit pattern (mod `2^64`) of an integer. -/
def toBits64 (x : Int) : Nat :=
  (x % 2 ^ 64).toNat

theorem toBits64_toSigned64 {x : Nat} (h : x < 2 ^ 64) :
    toBits64 (toSigned64 x) = x := by
  unfold toSigned64 toBits64
  by_cases hx : x < 2 ^ 63
  · simp [hx]
    omega
  · simp [hx]
    omega

/-! ## Register file (`Simulator::set_register` / `Simulator::get_register`)

The integer register bank `registers_` holds `kNumSimuRegisters` signed
64-bit cells.  `set_register` discards writes to index 0 and flags PC
modification; `get_register` returns 0 for index 0 and adds
`Instruction::kPCReadOffset` when reading the PC index. -/

/-- Modelled from the spec: the register-index constants live in a header
that is not part of the sources here.  The bank holds the 32 integer
registers plus the simulated PC as the last index. -/
def kNumSimuRegisters : Nat := 33

/-- Modelled from the spec: index of the simulated PC register. -/
def pcReg : Nat := 32

/-- Modelled from the spec: `Instruction::kPCReadOffset`, the fixed offset
added when reading the PC index; zero in this RISC-V port (the spec calls
it a fixed "read offset" constant simulating pipeline fetch quirks). -/
def kPCReadOffset : Int := 0

structure CpuState where
  registers : Nat → Int
  pc_modified : Bool

/-- `Simulator::set_register`: flags PC modification and discards writes
to the zero register. -/
def set_register (s : CpuState) (reg : Nat) (value : Int) : CpuState :=
  { s with
    pc_modified := if reg = pcReg then true else s.pc_modified
    registers := fun r =>
      if r = reg then (if reg = 0 then 0 else value) else s.registers r }

/-- `Simulator::get_register`: index 0 reads as zero; the PC index adds
`kPCReadOffset`. -/
def get_register (s : CpuState) (reg : Nat) : Int :=
  if reg = 0 then 0
  else s.registers reg + (if reg = pcReg then kPCReadOffset else 0)

/-! ## Integer divide / remainder executors (`Simulator::DecodeRVRType`)

`sext_xlen`/`zext_xlen` are the identity at `xlen = 64`; C++ `/` and `%`
on signed operands truncate toward zero (`Int.tdiv`/`Int.tmod`). -/

/-- `RO_DIV`: divide by zero yields `-1`; `INT64_MIN / -1` yields
`INT64_MIN`; otherwise truncated signed division. -/
def execDIV (a b : Nat) : Nat :=
  let lhs := toSigned64 a
  let rhs := toSigned64 b
  if rhs = 0 then toBits64 (-1)
  else if lhs = -(2 ^ 63) ∧ rhs = -1 then toBits64 lhs
  else toBits64 (Int.tdiv lhs rhs)

/-- `RO_DIVU`: divide by zero yields `UINT64_MAX`; otherwise unsigned
division. -/
def execDIVU (a b : Nat) : Nat :=
  if b = 0 then 2 ^ 64 - 1 else (a / b) % 2 ^ 64

/-- `RO_REM`: remainder by zero yields the dividend; `INT64_MIN % -1`
yields 0; otherwise truncated signed remainder. -/
def execREM (a b : Nat) : Nat :=
  let lhs := toSigned64 a
  let rhs := toSigned64 b
  if rhs = 0 then toBits64 lhs
  else if lhs = -(2 ^ 63) ∧ rhs = -1 then toBits64 0
  else toBits64 (Int.tmod lhs rhs)

/-- `RO_REMU`: remainder by zero yields the dividend; otherwise unsigned
remainder. -/
def execREMU (a b : Nat) : Nat :=
  if b = 0 then a % 2 ^ 64 else (a % b) % 2 ^ 64

/-! ## Local monitor (`Simulator::LocalMonitor`)

Per-core load-linked/store-conditional reservation state machine. -/

inductive MonitorAccess
  | Open
  | RMW
  deriving DecidableEq, Repr

inductive TransactionSize
  | None
  | Word
  | DoubleWord
  deriving DecidableEq, Repr

structure LocalMonitor where
  access_state : MonitorAccess
  tagged_addr : Nat
  size : TransactionSize
  deriving DecidableEq, Repr

/-- `LocalMonitor::Clear`. -/
def LocalMonitor.Clear (_ : LocalMonitor) : LocalMonitor :=
  ⟨MonitorAccess.Open, 0, TransactionSize.None⟩

/-- `LocalMonitor::NotifyLoadLinked`: records the reservation. -/
def LocalMonitor.NotifyLoadLinked (_ : LocalMonitor) (addr : Nat)
    (size : TransactionSize) : LocalMonitor :=
  ⟨MonitorAccess.RMW, addr, size⟩

/-- `LocalMonitor::NotifyStoreConditional`: returns the success flag and
the new monitor state.  In state `RMW` with matching address and size it
succeeds and clears; otherwise it fails without state change. -/
def LocalMonitor.NotifyStoreConditional (m : LocalMonitor) (addr : Nat)
    (size : TransactionSize) : Bool × LocalMonitor :=
  if m.access_state = MonitorAccess.RMW then
    if addr = m.tagged_addr ∧ m.size = size then (true, m.Clear)
    else (false, m)
  else (false, m)

/-! ## Saturating addition (`sat_add`)

Generic over a signed width `w`; `x`, `y` and the result are `w`-bit
patterns.  The C code computes the wrapped unsigned sum, builds the
saturation value from the sign bit of `x`, and detects overflow with the
sign-bit trick `(T)((ux ^ uy) | ~(uy ^ res)) >= 0` (on the modified
`ux`). -/

/-- Signed view of a `w`-bit pattern. -/
def toSignedW (w x : Nat) : Int :=
  if x < 2 ^ (w - 1) then (x : Int) else (x : Int) - 2 ^ w

/-- Bitwise complement within `w` bits. -/
def notW (w x : Nat) : Nat := x ^^^ (2 ^ w - 1)

/-- `sat_add<T, UT>`: returns the result pattern and the saturation
flag. -/
def sat_add (w x y : Nat) : Nat × Bool :=
  let ux := x
  let uy := y
  let res := (ux + uy) % 2 ^ w
  let sh := w - 1
  -- ux = (ux >> sh) + (((UT)0x1 << sh) - 1), in UT arithmetic
  let ux' := ((ux >>> sh) + (2 ^ sh - 1)) % 2 ^ w
  if 0 ≤ toSignedW w ((ux' ^^^ uy) ||| notW w (uy ^^^ res)) then
    (ux', true)
  else
    (res, false)

/-! ## Vector register file and executors

Modelled from the spec: the element accessor `Rvvelt<T>(reg, i)` (defined
in a header not among the sources) "computes a byte offset from element
index and width" into the 128-bit vector registers; elements spill
linearly into subsequent registers, so the file is a flat little-endian
byte array with element `i` of register `r` at byte `r * 16 + i * sewB`
for element width `sewB` bytes.  `rvv_vstart()`, `rvv_vl()`,
`rvv_vlmax()` and the element width come from the vector configuration
state. -/

/-- Little-endian read of `n` bytes starting at `a`. -/
def readBytes (m : Nat → Nat) (a n : Nat) : Nat :=
  match n with
  | 0 => 0
  | n + 1 => m a + 256 * readBytes m (a + 1) n

/-- Little-endian write of `n` bytes of `v` starting at `a`. -/
def writeBytes (m : Nat → Nat) (a n v : Nat) : Nat → Nat :=
  match n with
  | 0 => m
  | n + 1 => writeBytes (fun x => if x = a then v % 256 else m x) (a + 1) n (v / 256)

structure VState where
  vmem : Nat → Nat
  vstart : Nat
  vl : Nat
  vlmax : Nat
  sewB : Nat

/-- `Rvvelt<T>(reg, i)` as a read at the configured element width. -/
def VState.elt (s : VState) (reg i : Nat) : Nat :=
  readBytes s.vmem (reg * 16 + i * s.sewB) s.sewB

/-- `Rvvelt<T>(reg, i, true)`: write destination element `i`. -/
def VState.writeElt (s : VState) (reg i v : Nat) : VState :=
  { s with vmem := writeBytes s.vmem (reg * 16 + i * s.sewB) s.sewB v }

/-- `Rvvelt<uint64_t>(0, midx)`: the 64-bit mask word read used by the
carry loops. -/
def VState.maskWord (s : VState) (midx : Nat) : Nat :=
  readBytes s.vmem (0 * 16 + midx * 8) 8

/-- One iteration of `RO_V_VADC_VV`'s `RVV_VI_VV_LOOP_WITH_CARRY` body:
`vd = vs1 + vs2 + (v0 >> mpos) & 0x1;` — by C++ precedence the `& 0x1`
applies to the whole sum.  `RVV_VI_LOOP_END` resets `vstart` to 0 inside
the loop. -/
def vadcBody (vd vs1 vs2 : Nat) (s : VState) (i : Nat) : VState :=
  let midx := i / 64
  let mpos := i % 64
  let v0 := s.maskWord midx
  let x := s.elt vs1 i
  let y := s.elt vs2 i
  { s.writeElt vd i ((x + y + (v0 >>> mpos)) &&& 1) with vstart := 0 }

/-- `RO_V_VADC_VV`: the `CHECK_NE(rvv_vd_reg(), 0)` and the `UNREACHABLE()`
for the masked variant (`vm = false`) are fatal aborts, modelled as
`none`. -/
def execVADC (vm : Bool) (vd vs1 vs2 : Nat) (s : VState) : Option VState :=
  if vm then
    if vd = 0 then none
    else some ((List.range' s.vstart (s.vl - s.vstart)).foldl (vadcBody vd vs1 vs2) s)
  else none

/-- One iteration of `RO_V_VRGATHER_VV`'s loop:
`vd[i] = vs1[i] >= rvv_vlmax() ? 0 : vs2[vs1[i]]`, with the `vstart`
reset of `RVV_VI_LOOP_END`. -/
def vrgatherBody (vd vs1 vs2 : Nat) (s : VState) (i : Nat) : VState :=
  let idx := s.elt vs1 i
  let v := if idx ≥ s.vlmax then 0 else s.elt vs2 idx
  { s.writeElt vd i v with vstart := 0 }

/-- `RO_V_VRGATHER_VV`: total over the active range — an out-of-range
index selects 0 and never aborts. -/
def execVRGATHER (vd vs1 vs2 : Nat) (s : VState) : VState :=
  (List.range' s.vstart (s.vl - s.vstart)).foldl (vrgatherBody vd vs1 vs2) s

/-! ## IEEE binary32 bit-pattern model

Floats are 32-bit patterns.  A NaN has exponent field all-ones and a
nonzero mantissa; IEEE `==` is false whenever an operand is NaN and
otherwise identifies exactly the patterns of equal value (`+0 == -0`,
all other values have a unique pattern), captured through the standard
signed-magnitude ordering key. -/

/-- NaN predicate on a binary32 pattern. -/
def isNan32 (x : Nat) : Bool :=
  ((x >>> 23) &&& 255) = 255 ∧ (x &&& 0x7FFFFF) ≠ 0

/-- Sign bit of a binary32 pattern (`std::signbit`). -/
def signbit32 (x : Nat) : Bool := x >>> 31 = 1

/-- Ordering key: non-NaN patterns compare by value exactly as their keys
compare (both zeroes map to 0). -/
def key32 (x : Nat) : Int :=
  if signbit32 x then -((x &&& 0x7FFFFFFF : Nat) : Int) else (x &&& 0x7FFFFFFF : Nat)

/-- IEEE `==` on binary32 patterns. -/
def ieeeEq32 (a b : Nat) : Bool :=
  ¬isNan32 a ∧ ¬isNan32 b ∧ key32 a = key32 b

/-- C `fmax` on non-NaN, non-equal operands (the only way the helper
calls it). -/
def fmax32 (a b : Nat) : Nat := if key32 a < key32 b then b else a

/-- C `fmin` on non-NaN, non-equal operands. -/
def fmin32 (a b : Nat) : Nat := if key32 a < key32 b then a else b

/-- `std::numeric_limits<float>::signaling_NaN()`. -/
def sNaN32 : Nat := 0x7FA00000

/-- `std::numeric_limits<float>::quiet_NaN()`. -/
def qNaN32 : Nat := 0x7FC00000

/-- The pattern of `5.0f`. -/
def five32 : Nat := 0x40A00000

/-- Modelled from the spec: `kInvalidOperation`, the accrued
invalid-operation exception flag bit (defined in a header not among the
sources); bit 4 of the RISC-V `fflags` field. -/
def kInvalidOperation : Nat := 16

/-- `Simulator::set_csr_bits(csr_fflags, v)`: OR-accumulates into the
FCSR. -/
def set_csr_bits_fflags (fcsr v : Nat) : Nat := fcsr ||| v

inductive MaxMinKind
  | kMin
  | kMax
  deriving DecidableEq, Repr

/-- `Simulator::FMaxMinHelper<float>`: returns the updated FCSR and the
result pattern.  The signaling-NaN test is the C++ expression
`a == std::numeric_limits<T>::signaling_NaN()`, an IEEE comparison. -/
def FMaxMinHelper32 (fcsr a b : Nat) (kind : MaxMinKind) : Nat × Nat :=
  let fcsr' :=
    if ieeeEq32 a sNaN32 ∨ ieeeEq32 b sNaN32 then
      set_csr_bits_fflags fcsr kInvalidOperation
    else fcsr
  let result :=
    if isNan32 a ∧ isNan32 b then qNaN32
    else if isNan32 a then b
    else if isNan32 b then a
    else if ieeeEq32 b a then
      match kind with
      | MaxMinKind.kMax => if signbit32 b then a else b
      | MaxMinKind.kMin => if signbit32 b then b else a
    else
      match kind with
      | MaxMinKind.kMax => fmax32 a b
      | MaxMinKind.kMin => fmin32 a b
  (fcsr', result)

/-! ## NaN-boxed floating-point registers

`FPUregisters_` holds 64-bit cells; floats are narrow values NaN-boxed
into them. -/

/-- Modelled from the spec: `box_float` (header, not among the sources)
sets the upper 32 bits all-ones around the narrow pattern. -/
def box_float (f : Nat) : Nat := 0xFFFFFFFF00000000 ||| (f &&& 0xFFFFFFFF)

/-- Modelled from the spec: `is_boxed_float` checks the upper 32 bits are
all-ones. -/
def is_boxed_float (v : Nat) : Bool := v >>> 32 = 0xFFFFFFFF

structure FpuState where
  FPUregisters : Nat → Nat

/-- `Simulator::set_fpu_register_double` (the stored 64-bit cell is the
double's bit pattern). -/
def set_fpu_register_double (s : FpuState) (r : Nat) (dbits : Nat) : FpuState :=
  ⟨fun x => if x = r then dbits else s.FPUregisters x⟩

/-- `Simulator::get_fpu_register_double`. -/
def get_fpu_register_double (s : FpuState) (r : Nat) : Nat :=
  s.FPUregisters r

/-- `Simulator::set_fpu_register_float`: NaN-boxes the narrow pattern. -/
def set_fpu_register_float (s : FpuState) (r : Nat) (fbits : Nat) : FpuState :=
  ⟨fun x => if x = r then box_float fbits else s.FPUregisters x⟩

/-- `Simulator::get_fpu_register_float`: a non-boxed cell reads as the
canonical quiet NaN. -/
def get_fpu_register_float (s : FpuState) (r : Nat) : Nat :=
  if ¬is_boxed_float (s.FPUregisters r) then qNaN32
  else s.FPUregisters r &&& 0xFFFFFFFF

/-! ## Breakpoints (`Simulator::SetBreakpoint` / `CheckBreakpoints`) -/

structure Breakpoint where
  location : Nat
  enabled : Bool
  is_tbreak : Bool
  deriving DecidableEq, Repr

/-- `Simulator::SetBreakpoint`: on the first entry matching the address,
a differing temporary flag changes the kind and returns; a matching flag
toggles the enabled state and returns; otherwise a new enabled entry is
appended. -/
def SetBreakpoint : List Breakpoint → Nat → Bool → List Breakpoint
  | [], loc, tb => [⟨loc, true, tb⟩]
  | bp :: rest, loc, tb =>
    if bp.location = loc then
      if bp.is_tbreak ≠ tb then { bp with is_tbreak := tb } :: rest
      else { bp with enabled := ¬bp.enabled } :: rest
    else bp :: SetBreakpoint rest loc tb

/-- `Simulator::CheckBreakpoints`: finds the first enabled entry at the
PC; a temporary hit disables that entry; returns whether a breakpoint
was hit together with the updated list. -/
def CheckBreakpoints : List Breakpoint → Nat → Bool × List Breakpoint
  | [], _ => (false, [])
  | bp :: rest, pc =>
    if bp.location = pc ∧ bp.enabled then
      (true, (if bp.is_tbreak then { bp with enabled := false } else bp) :: rest)
    else
      let r := CheckBreakpoints rest pc
      (r.1, bp :: r.2)

/-! ## Theorems -/

/-- C1: for every valid register index `i ≠ 0` and every 64-bit value
`v`, `set_register i v` followed by `get_register i` returns `v`; for
`i = 0` the write is discarded and the read yields zero. -/
theorem set_get_register_roundtrip (s : CpuState) (i : Nat) (v : Int)
    (_hi : i < kNumSimuRegisters) :
    (i ≠ 0 → get_register (set_register s i v) i = v) ∧
    get_register (set_register s 0 v) 0 = 0 := by
  refine ⟨fun h0 => ?_, by simp [get_register]⟩
  unfold get_register set_register
  by_cases hp : i = pcReg <;> simp [h0, hp, kPCReadOffset, pcReg]

/-- Witness for C1 at register 5 and value 42. -/
theorem set_get_register_roundtrip_witness :
    get_register (set_register ⟨fun _ => 0, false⟩ 5 42) 5 = 42 :=
  (set_get_register_roundtrip ⟨fun _ => 0, false⟩ 5 42 (by decide)).1 (by decide)

/-- C2: on a single core's local monitor, a store-conditional with no
prior load-linked (state `Open`) fails without state change; after a
load-linked to `(addr, size)` a store-conditional to the same address
and size succeeds and clears the reservation; the immediately following
store-conditional fails; and from `RMW` a mismatched address or size
fails without state change. -/
theorem local_monitor_llsc (m : LocalMonitor) (addr : Nat)
    (size : TransactionSize) :
    (m.access_state = MonitorAccess.Open →
      m.NotifyStoreConditional addr size = (false, m)) ∧
    ((m.NotifyLoadLinked addr size).NotifyStoreConditional addr size =
      (true, ⟨MonitorAccess.Open, 0, TransactionSize.None⟩)) ∧
    ((⟨MonitorAccess.Open, 0, TransactionSize.None⟩ :
        LocalMonitor).NotifyStoreConditional addr size =
      (false, ⟨MonitorAccess.Open, 0, TransactionSize.None⟩)) ∧
    (∀ addr' size', m.access_state = MonitorAccess.RMW →
      ¬(addr' = m.tagged_addr ∧ m.size = size') →
      m.NotifyStoreConditional addr' size' = (false, m)) := by
  refine ⟨fun hopen => ?_, ?_, ?_, fun addr' size' hrmw hmis => ?_⟩
  · unfold LocalMonitor.NotifyStoreConditional
    simp [hopen]
  · unfold LocalMonitor.NotifyStoreConditional LocalMonitor.NotifyLoadLinked
      LocalMonitor.Clear
    simp
  · unfold LocalMonitor.NotifyStoreConditional
    simp
  · unfold LocalMonitor.NotifyStoreConditional
    simp [hrmw, hmis]

/-- Witness for C2: from the initial `Open` monitor, a store-conditional
fails, and a load-linked/store-conditional pair succeeds. -/
theorem local_monitor_llsc_witness :
    (⟨MonitorAccess.Open, 0, TransactionSize.None⟩ :
        LocalMonitor).NotifyStoreConditional 8 TransactionSize.Word =
      (false, ⟨MonitorAccess.Open, 0, TransactionSize.None⟩) ∧
    ((⟨MonitorAccess.Open, 0, TransactionSize.None⟩ :
        LocalMonitor).NotifyLoadLinked 8 TransactionSize.Word).NotifyStoreConditional
        8 TransactionSize.Word =
      (true, ⟨MonitorAccess.Open, 0, TransactionSize.None⟩) :=
  ⟨(local_monitor_llsc ⟨MonitorAccess.Open, 0, TransactionSize.None⟩ 8
      TransactionSize.Word).1 rfl,
   (local_monitor_llsc ⟨MonitorAccess.Open, 0, TransactionSize.None⟩ 8
      TransactionSize.Word).2.1⟩

/-- C3: divide-by-zero and signed-overflow cases of the divide/remainder
executors: signed `x / 0 = -1` (all-ones pattern), unsigned
`x / 0 = UINT64_MAX`, signed and unsigned `x % 0 = x`,
`INT64_MIN / -1 = INT64_MIN` and `INT64_MIN % -1 = 0`, with no trap
(each executor is a total function). -/
theorem div_rem_edge_cases (x : Nat) (hx : x < 2 ^ 64) :
    execDIV x 0 = 2 ^ 64 - 1 ∧
    execDIVU x 0 = 2 ^ 64 - 1 ∧
    execREM x 0 = x ∧
    execREMU x 0 = x ∧
    execDIV (2 ^ 63) (2 ^ 64 - 1) = 2 ^ 63 ∧
    execREM (2 ^ 63) (2 ^ 64 - 1) = 0 := by
  refine ⟨?_, ?_, ?_, ?_, ?_, ?_⟩
  · unfold execDIV
    norm_num [toSigned64, toBits64]
    rfl
  · unfold execDIVU
    norm_num
  · unfold execREM
    norm_num [toSigned64]
    exact toBits64_toSigned64 hx
  · unfold execREMU
    have : (2:Nat) ^ 64 = 18446744073709551616 := by norm_num
    rw [this] at hx
    norm_num [Nat.mod_eq_of_lt hx]
  · unfold execDIV
    norm_num [toSigned64, toBits64]
    rfl
  · unfold execREM
    norm_num [toSigned64, toBits64]

/-- Witness for C3 at `x = 7`. -/
theorem div_rem_edge_cases_witness :
    execDIV 7 0 = 2 ^ 64 - 1 ∧ execREM 7 0 = 7 :=
  ⟨(div_rem_edge_cases 7 (by norm_num)).1,
   (div_rem_edge_cases 7 (by norm_num)).2.2.1⟩

theorem shiftRight_or_distrib (a b k : Nat) :
    (a ||| b) >>> k = (a >>> k) ||| (b >>> k) := by
  apply Nat.eq_of_testBit_eq
  intro i
  simp [Nat.testBit_or, Nat.testBit_shiftRight]

theorem and_or_distrib_right (a b c : Nat) :
    (a ||| b) &&& c = (a &&& c) ||| (b &&& c) := by
  apply Nat.eq_of_testBit_eq
  intro i
  simp [Nat.testBit_or, Nat.testBit_and]
  cases a.testBit i <;> cases b.testBit i <;> cases c.testBit i <;> simp

theorem and_mask32_eq (f : Nat) (hf : f < 2 ^ 32) : f &&& 0xFFFFFFFF = f := by
  have h : (0xFFFFFFFF : Nat) = 2 ^ 32 - 1 := by norm_num
  rw [h, Nat.and_pow_two_sub_one_eq_mod, Nat.mod_eq_of_lt hf]

theorem is_boxed_box_float (f : Nat) :
    is_boxed_float (box_float f) = true := by
  unfold is_boxed_float box_float
  rw [shiftRight_or_distrib]
  have h1 : (0xFFFFFFFF00000000 : Nat) >>> 32 = 0xFFFFFFFF := by
    rw [Nat.shiftRight_eq_div_pow]
  have h2 : (f &&& 0xFFFFFFFF) >>> 32 = 0 := by
    rw [Nat.shiftRight_eq_div_pow]
    have hm : (0xFFFFFFFF : Nat) = 2 ^ 32 - 1 := by norm_num
    have : f &&& 0xFFFFFFFF < 2 ^ 32 := by
      rw [hm, Nat.and_pow_two_sub_one_eq_mod]
      exact Nat.mod_lt _ (by norm_num)
    exact Nat.div_eq_of_lt this
  rw [h1, h2]
  decide

theorem low32_box_float (f : Nat) (hf : f < 2 ^ 32) :
    box_float f &&& 0xFFFFFFFF = f := by
  unfold box_float
  rw [and_or_distrib_right]
  have h1 : (0xFFFFFFFF00000000 : Nat) &&& 0xFFFFFFFF = 0 := by decide
  rw [h1, and_mask32_eq f hf, and_mask32_eq f hf]
  simp

/-- C6: writing a double into a floating register and reading it back
yields the identical bit pattern; writing a 32-bit float (NaN-boxed) and
reading it back as a float yields the identical bit pattern; reading a
cell whose upper 32 bits are not all-ones yields the canonical quiet
NaN. -/
theorem fpu_register_roundtrip (s : FpuState) (r : Nat) (dbits fbits : Nat)
    (hf : fbits < 2 ^ 32) :
    get_fpu_register_double (set_fpu_register_double s r dbits) r = dbits ∧
    get_fpu_register_float (set_fpu_register_float s r fbits) r = fbits ∧
    (¬is_boxed_float (s.FPUregisters r) →
      get_fpu_register_float s r = qNaN32 ∧
      isNan32 qNaN32 = true ∧ qNaN32 &&& 0x400000 ≠ 0) := by
  refine ⟨?_, ?_, fun hnb => ⟨?_, by decide, by decide⟩⟩
  · unfold get_fpu_register_double set_fpu_register_double
    simp
  · unfold get_fpu_register_float set_fpu_register_float
    simp [is_boxed_box_float, low32_box_float fbits hf]
  · unfold get_fpu_register_float
    simp [hnb]

/-- Witness for C6 at register 3, double pattern 12345 and the float
pattern of `5.0f`, over the all-zero (non-boxed) register file. -/
theorem fpu_register_roundtrip_witness :
    get_fpu_register_double
        (set_fpu_register_double ⟨fun _ => 0⟩ 3 12345) 3 = 12345 ∧
    get_fpu_register_float
        (set_fpu_register_float ⟨fun _ => 0⟩ 3 five32) 3 = five32 ∧
    get_fpu_register_float ⟨fun _ => 0⟩ 3 = qNaN32 :=
  ⟨(fpu_register_roundtrip ⟨fun _ => 0⟩ 3 12345 five32 (by decide)).1,
   (fpu_register_roundtrip ⟨fun _ => 0⟩ 3 12345 five32 (by decide)).2.1,
   ((fpu_register_roundtrip ⟨fun _ => 0⟩ 3 12345 five32 (by decide)).2.2
      (by decide)).1⟩

theorem SetBreakpoint_countP (l : List Breakpoint) (loc : Nat) (tb : Bool) :
    List.countP (fun b => b.location == loc) (SetBreakpoint l loc tb) =
      max 1 (List.countP (fun b => b.location == loc) l) := by
  induction l with
  | nil => simp [SetBreakpoint, List.countP_cons]
  | cons bp rest ih =>
    by_cases h : bp.location = loc
    · by_cases hk : bp.is_tbreak ≠ tb
      · simp [SetBreakpoint, h, hk, List.countP_cons]
      · simp [SetBreakpoint, h, hk, List.countP_cons]
    · simp [SetBreakpoint, h, List.countP_cons, ih]

theorem SetBreakpoint_find_tbreak (l : List Breakpoint) (loc : Nat)
    (tb : Bool) :
    ∃ bp1, (SetBreakpoint l loc tb).find? (fun b => b.location == loc) =
        some bp1 ∧ bp1.location = loc ∧ bp1.is_tbreak = tb := by
  induction l with
  | nil => exact ⟨⟨loc, true, tb⟩, by simp [SetBreakpoint], rfl, rfl⟩
  | cons bp rest ih =>
    by_cases h : bp.location = loc
    · by_cases hk : bp.is_tbreak ≠ tb
      · exact ⟨{ bp with is_tbreak := tb },
          by simp [SetBreakpoint, h, hk], h, rfl⟩
      · exact ⟨{ bp with enabled := ¬bp.enabled },
          by simp [SetBreakpoint, h, hk], h, by simpa using hk⟩
    · obtain ⟨bp1, hf, hl, hb⟩ := ih
      exact ⟨bp1, by simp [SetBreakpoint, h, hf], hl, hb⟩

theorem SetBreakpoint_find_toggle (l : List Breakpoint) (loc : Nat)
    (tb : Bool) (bp1 : Breakpoint)
    (hf : l.find? (fun b => b.location == loc) = some bp1)
    (hk : bp1.is_tbreak = tb) :
    (SetBreakpoint l loc tb).find? (fun b => b.location == loc) =
      some { bp1 with enabled := ¬bp1.enabled } := by
  induction l with
  | nil => simp at hf
  | cons bp rest ih =>
    by_cases h : bp.location = loc
    · have hbp : bp = bp1 := by
        simpa [List.find?_cons, h] using hf
      subst hbp
      simp [SetBreakpoint, h, hk]
    · have hf' : rest.find? (fun b => b.location == loc) = some bp1 := by
        simpa [List.find?_cons, h] using hf
      simp [SetBreakpoint, h, ih hf']

theorem CheckBreakpoints_no_match (l : List Breakpoint) (pc : Nat)
    (h : ∀ b ∈ l, b.location ≠ pc) :
    CheckBreakpoints l pc = (false, l) := by
  induction l with
  | nil => rfl
  | cons bp rest ih =>
    have hbp : bp.location ≠ pc := h bp (by simp)
    have ih' := ih (fun b hb => h b (by simp [hb]))
    simp [CheckBreakpoints, hbp, ih']

theorem CheckBreakpoints_temp_hit (l1 l2 : List Breakpoint) (pc : Nat)
    (bp : Breakpoint) (h1 : ∀ b ∈ l1, b.location ≠ pc)
    (hloc : bp.location = pc) (hen : bp.enabled = true)
    (htb : bp.is_tbreak = true) :
    CheckBreakpoints (l1 ++ bp :: l2) pc =
      (true, l1 ++ { bp with enabled := false } :: l2) := by
  induction l1 with
  | nil => simp [CheckBreakpoints, hloc, hen, htb]
  | cons a l1' ih =>
    have ha : a.location ≠ pc := h1 a (by simp)
    have ih' := ih (fun b hb => h1 b (by simp [hb]))
    simp [CheckBreakpoints, ha, ih']

theorem CheckBreakpoints_fst_false (l : List Breakpoint) (pc : Nat)
    (hall : ∀ b ∈ l, b.location = pc → b.enabled = false) :
    (CheckBreakpoints l pc).1 = false := by
  induction l with
  | nil => rfl
  | cons a rest ih =>
    have ih' := ih (fun b hb => hall b (by simp [hb]))
    by_cases hc : a.location = pc
    · simp [CheckBreakpoints, hc, hall a (by simp) hc, ih']
    · simp [CheckBreakpoints, hc, ih']

/-- C9: calling `SetBreakpoint` twice with the same address (and flag)
adds no duplicate entry — the address's entry count after the second
call equals the count after the first, which is one entry whether or not
one existed before — and the second call toggles that breakpoint's
enabled state; an enabled temporary breakpoint is disabled by its first
hit, so a second check at the same PC does not fire. -/
theorem breakpoint_lifecycle (l : List Breakpoint) (loc : Nat) (tb : Bool) :
    (List.countP (fun b => b.location == loc)
        (SetBreakpoint (SetBreakpoint l loc tb) loc tb) =
       List.countP (fun b => b.location == loc) (SetBreakpoint l loc tb) ∧
     List.countP (fun b => b.location == loc) (SetBreakpoint l loc tb) =
       max 1 (List.countP (fun b => b.location == loc) l)) ∧
    (∃ bp1, (SetBreakpoint l loc tb).find? (fun b => b.location == loc) =
        some bp1 ∧
      (SetBreakpoint (SetBreakpoint l loc tb) loc tb).find?
          (fun b => b.location == loc) =
        some { bp1 with enabled := ¬bp1.enabled }) ∧
    (∀ l1 l2 (bp : Breakpoint), (∀ b ∈ l1, b.location ≠ loc) →
      bp.location = loc → bp.enabled = true → bp.is_tbreak = true →
      CheckBreakpoints (l1 ++ bp :: l2) loc =
        (true, l1 ++ { bp with enabled := false } :: l2) ∧
      ((∀ b ∈ l2, b.location ≠ loc) →
        (CheckBreakpoints (l1 ++ { bp with enabled := false } :: l2) loc).1 =
          false)) := by
  refine ⟨⟨?_, SetBreakpoint_countP l loc tb⟩, ?_,
    fun l1 l2 bp h1 hloc hen htb => ⟨?_, fun h2 => ?_⟩⟩
  · rw [SetBreakpoint_countP, SetBreakpoint_countP]
    omega
  · obtain ⟨bp1, hf, _, hk⟩ := SetBreakpoint_find_tbreak l loc tb
    exact ⟨bp1, hf, SetBreakpoint_find_toggle _ loc tb bp1 hf hk⟩
  · exact CheckBreakpoints_temp_hit l1 l2 loc bp h1 hloc hen htb
  · have hall : ∀ b ∈ l1 ++ { bp with enabled := false } :: l2,
        b.location = loc → b.enabled = false := by
      intro b hb
      rcases List.mem_append.mp hb with hb1 | hb2
      · exact fun hc => absurd hc (h1 b hb1)
      · rcases List.mem_cons.mp hb2 with hb3 | hb4
        · intro _
          rw [hb3]
        · exact fun hc => absurd hc (h2 b hb4)
    exact CheckBreakpoints_fst_false _ loc hall

/-- Witness for C9: setting a breakpoint twice at 100 over the empty
list leaves one disabled entry, and an enabled temporary breakpoint at
100 hits once, is disabled, and does not hit again. -/
theorem breakpoint_lifecycle_witness :
    CheckBreakpoints ([] ++ (⟨100, true, true⟩ : Breakpoint) :: []) 100 =
      (true, [] ++ (⟨100, false, true⟩ : Breakpoint) :: []) ∧
    (CheckBreakpoints ([] ++ (⟨100, false, true⟩ : Breakpoint) :: []) 100).1 =
      false := by
  have h := (breakpoint_lifecycle [] 100 true).2.2 [] []
    ⟨100, true, true⟩ (by simp) rfl rfl rfl
  exact ⟨h.1, h.2 (by simp)⟩

/-- C10: calling `SetBreakpoint` for an address whose (first) existing
entry carries a different temporary flag changes that entry's kind to
the call's flag and returns — the enabled state is untouched, no entry
is added, and the rest of the list is unchanged. -/
theorem set_breakpoint_kind_change (l1 l2 : List Breakpoint) (loc : Nat)
    (tb : Bool) (bp : Breakpoint) (h1 : ∀ b ∈ l1, b.location ≠ loc)
    (hloc : bp.location = loc) (hk : bp.is_tbreak ≠ tb) :
    SetBreakpoint (l1 ++ bp :: l2) loc tb =
      l1 ++ { bp with is_tbreak := tb } :: l2 := by
  induction l1 with
  | nil => simp [SetBreakpoint, hloc, hk]
  | cons a l1' ih =>
    have ha : a.location ≠ loc := h1 a (by simp)
    have ih' := ih (fun b hb => h1 b (by simp [hb]))
    simp [SetBreakpoint, ha, ih']

/-- Witness for C10: changing a regular breakpoint at 100 into a
temporary one preserves its (disabled) enabled state. -/
theorem set_breakpoint_kind_change_witness :
    SetBreakpoint ([] ++ (⟨100, false, false⟩ : Breakpoint) :: []) 100 true =
      [] ++ (⟨100, false, true⟩ : Breakpoint) :: [] :=
  set_breakpoint_kind_change [] [] 100 true ⟨100, false, false⟩ (by simp)
    rfl (by simp)

/-- C5 (code-bug evaluation): `0x7FA00000` is a signaling NaN (NaN with
the quiet bit clear), yet `FMaxMinHelper` on `max(signalingNaN, 5.0f)`
leaves the FCSR unchanged — the invalid-operation flag is not set,
because the signaling-NaN test `a == signaling_NaN()` is an IEEE
comparison, false whenever an operand is NaN — and the result is `5.0f`
(the non-NaN operand), not a quiet NaN. -/
theorem fmaxmin_snan_flag_not_set :
    isNan32 sNaN32 = true ∧ sNaN32 &&& 0x400000 = 0 ∧
    FMaxMinHelper32 0 sNaN32 five32 MaxMinKind.kMax = (0, five32) ∧
    (FMaxMinHelper32 0 sNaN32 five32 MaxMinKind.kMax).1 &&&
      kInvalidOperation = 0 ∧
    isNan32 (FMaxMinHelper32 0 sNaN32 five32 MaxMinKind.kMax).2 = false := by
  refine ⟨by decide, by decide, ?_, by decide, by decide⟩
  decide

/-- C7 (code-bug evaluation): for `vadc.vv` with SEW=8, `vl = 1`,
carry-in bit 1 and element operands `vs1[0] = 1`, `vs2[0] = 1`, the
executed unmasked instruction stores `(1 + 1 + 1) & 1 = 1` into the
destination element — the C++ `& 0x1` binds to the whole sum, not to the
carry bit — while the element-wise sum with carry is 3; the masked
variant aborts (`UNREACHABLE`), modelled as `none`. -/
theorem vadc_truncates_sum :
    (execVADC true 4 1 2
        ⟨fun a => if a = 0 then 1 else if a = 16 then 1 else
          if a = 32 then 1 else 0, 0, 1, 16, 1⟩).map
        (fun s' => s'.elt 4 0) = some 1 ∧
    (1 + 1 + 1) % 256 = 3 ∧ (1 : Nat) ≠ 3 ∧
    (execVADC false 4 1 2
        ⟨fun a => if a = 0 then 1 else if a = 16 then 1 else
          if a = 32 then 1 else 0, 0, 1, 16, 1⟩).isNone = true := by
  refine ⟨?_, by decide, by decide, rfl⟩
  rfl

theorem testBit_high_iff (w z : Nat) (hw : 0 < w) (hz : z < 2^w) :
    z.testBit (w-1) = true ↔ 2^(w-1) ≤ z := by
  have h2 : 2^w = 2 * 2^(w-1) := by
    conv_lhs => rw [show w = (w-1) + 1 by omega]
    rw [pow_succ]
    ring
  have hpos : 0 < 2^(w-1) := Nat.pos_pow_of_pos _ (by norm_num)
  have hq2 : z / 2^(w-1) < 2 := by
    rw [Nat.div_lt_iff_lt_mul hpos]
    omega
  have hq1 : 1 ≤ z / 2^(w-1) ↔ 2^(w-1) ≤ z := Nat.one_le_div_iff hpos
  rw [Nat.testBit_to_div_mod, decide_eq_true_iff, Nat.mod_eq_of_lt hq2]
  constructor
  · intro h1
    exact hq1.mp (by rw [h1])
  · intro hle
    exact Nat.le_antisymm (Nat.lt_succ_iff.mp hq2) (hq1.mpr hle)

theorem toSignedW_nonneg_iff (w z : Nat) (hz : z < 2^w) :
    0 ≤ toSignedW w z ↔ z < 2^(w-1) := by
  unfold toSignedW
  by_cases h : z < 2^(w-1)
  · simp [h]
  · simp [h]
    have hz' : (z:Int) < (2:Int)^w := by exact_mod_cast hz
    omega

theorem toSignedW_range (w z : Nat) (hw : 0 < w) (hz : z < 2^w) :
    -(2^(w-1) : Int) ≤ toSignedW w z ∧ toSignedW w z ≤ 2^(w-1) - 1 := by
  have h2 : (2:Int)^w = 2 * 2^(w-1) := by
    conv_lhs => rw [show w = (w-1) + 1 by omega]
    rw [pow_succ]
    ring
  have hz' : (z:Int) < (2:Int)^w := by exact_mod_cast hz
  unfold toSignedW
  by_cases h : z < 2^(w-1)
  · have h' : (z:Int) < (2:Int)^(w-1) := by exact_mod_cast h
    have hp : (0:Int) ≤ 2^(w-1) := by positivity
    simp [h]
    omega
  · have h' : (2:Int)^(w-1) ≤ (z:Int) := by exact_mod_cast Nat.le_of_not_lt h
    simp [h]
    omega

theorem sat_cond_iff (w ux y R : Nat) (hw : 0 < w) (hux : ux < 2^w)
    (hy : y < 2^w) (hR : R < 2^w) :
    (0 ≤ toSignedW w ((ux ^^^ y) ||| notW w (y ^^^ R))) ↔
      ((ux < 2^(w-1) ↔ y < 2^(w-1)) ∧ ¬(y < 2^(w-1) ↔ R < 2^(w-1))) := by
  have hmask : (2^w - 1 : Nat) < 2^w := by
    have : (0:Nat) < 2^w := by positivity
    omega
  have hxor1 : ux ^^^ y < 2^w := Nat.xor_lt_two_pow hux hy
  have hxor2 : y ^^^ R < 2^w := Nat.xor_lt_two_pow hy hR
  have hnot : notW w (y ^^^ R) < 2^w := Nat.xor_lt_two_pow hxor2 hmask
  have hC : (ux ^^^ y) ||| notW w (y ^^^ R) < 2^w := Nat.or_lt_two_pow hxor1 hnot
  rw [toSignedW_nonneg_iff _ _ hC]
  have hbit : ∀ z, z < 2^w → (z < 2^(w-1) ↔ z.testBit (w-1) = false) := by
    intro z hz
    have := testBit_high_iff w z hw hz
    cases htb : z.testBit (w-1) <;> simp [htb] at this ⊢ <;> omega
  rw [hbit _ hC, hbit _ hux, hbit _ hy, hbit _ hR]
  unfold notW
  rw [Nat.testBit_or, Nat.testBit_xor, Nat.testBit_xor, Nat.testBit_xor,
    Nat.testBit_two_pow_sub_one]
  have hww : decide (w - 1 < w) = true := by simp; omega
  rw [hww]
  cases ux.testBit (w-1) <;> cases y.testBit (w-1) <;> cases R.testBit (w-1) <;> simp

theorem sat_add_correct (w x y : Nat) (hw : 0 < w) (hx : x < 2^w)
    (hy : y < 2^w) :
    (-(2^(w-1) : Int) ≤ toSignedW w (sat_add w x y).1 ∧
      toSignedW w (sat_add w x y).1 ≤ 2^(w-1) - 1) ∧
    ((sat_add w x y).2 = true ↔
      (toSignedW w x + toSignedW w y < -(2^(w-1)) ∨
       (2^(w-1) : Int) - 1 < toSignedW w x + toSignedW w y)) ∧
    ((sat_add w x y).2 = true →
      ((2^(w-1) : Int) - 1 < toSignedW w x + toSignedW w y →
        (sat_add w x y).1 = 2^(w-1) - 1) ∧
      (toSignedW w x + toSignedW w y < -(2^(w-1)) →
        (sat_add w x y).1 = 2^(w-1))) := by
  have hpos : 0 < 2^(w-1) := Nat.pos_pow_of_pos _ (by norm_num)
  have h2 : 2^w = 2 * 2^(w-1) := by
    conv_lhs => rw [show w = (w-1) + 1 by omega]
    rw [pow_succ]
    ring
  have h2i : (2:Int)^w = 2 * 2^(w-1) := by
    conv_lhs => rw [show w = (w-1) + 1 by omega]
    rw [pow_succ]
    ring
  have hp2 : (0:Int) < 2^(w-1) := by positivity
  have hshift : x >>> (w-1) = x / 2^(w-1) := Nat.shiftRight_eq_div_pow x (w-1)
  have huxval : ((x >>> (w-1)) + (2^(w-1) - 1)) % 2^w =
      if x < 2^(w-1) then 2^(w-1) - 1 else 2^(w-1) := by
    rw [hshift]
    by_cases hxs : x < 2^(w-1)
    · rw [Nat.div_eq_of_lt hxs, if_pos hxs, Nat.zero_add]
      exact Nat.mod_eq_of_lt (by omega)
    · have hdiv : x / 2^(w-1) = 1 := by
        have hlt : x / 2^(w-1) < 2 := by
          rw [Nat.div_lt_iff_lt_mul hpos]
          omega
        have hge : 1 ≤ x / 2^(w-1) := (Nat.one_le_div_iff hpos).mpr (Nat.le_of_not_lt hxs)
        omega
      rw [hdiv, if_neg hxs, show 1 + (2^(w-1) - 1) = 2^(w-1) by omega]
      exact Nat.mod_eq_of_lt (by omega)
  have hunfold : sat_add w x y =
      (if 0 ≤ toSignedW w (((((x >>> (w-1)) + (2^(w-1) - 1)) % 2^w) ^^^ y) |||
          notW w (y ^^^ ((x + y) % 2^w)))
       then (((x >>> (w-1)) + (2^(w-1) - 1)) % 2^w, true)
       else ((x + y) % 2^w, false)) := rfl
  rw [hunfold, huxval]
  set U : Nat := if x < 2^(w-1) then 2^(w-1) - 1 else 2^(w-1) with hUdef
  set R : Nat := (x + y) % 2^w with hRdef
  have hRlt : R < 2^w := Nat.mod_lt _ (by positivity)
  have hUlt : U < 2^w := by
    rw [hUdef]
    by_cases hxs : x < 2^(w-1) <;> simp [hxs] <;> omega
  have hcid := sat_cond_iff w U y R hw hUlt hy hRlt
  have hxi : (x:Int) < (2:Int)^w := by exact_mod_cast hx
  have hyi : (y:Int) < (2:Int)^w := by exact_mod_cast hy
  have hRi2 : (R:Int) < (2:Int)^w := by exact_mod_cast hRlt
  by_cases hxs : x < 2^(w-1) <;> by_cases hys : y < 2^(w-1)
  -- Case A : both operands non-negative
  · have hUeq : U = 2^(w-1) - 1 := if_pos hxs
    have hUlt' : U < 2^(w-1) := by omega
    have hcv : (0 ≤ toSignedW w ((U ^^^ y) ||| notW w (y ^^^ R))) ↔
        ¬(R < 2^(w-1)) := by
      rw [hcid]
      simp [hUlt', hys]
    have hR' : R = x + y := Nat.mod_eq_of_lt (by omega)
    have hsx : toSignedW w x = x := by
      unfold toSignedW
      rw [if_pos hxs]
    have hsy : toSignedW w y = y := by
      unfold toSignedW
      rw [if_pos hys]
    have hRi : (R:Int) = (x:Int) + y := by
      rw [hR']
      push_cast
      ring
    have hxsi : (x:Int) < (2:Int)^(w-1) := by exact_mod_cast hxs
    have hysi : (y:Int) < (2:Int)^(w-1) := by exact_mod_cast hys
    by_cases hrs : R < 2^(w-1)
    · rw [if_neg (fun hc => (hcv.mp hc) hrs)]
      have hrsi : (R:Int) < (2:Int)^(w-1) := by exact_mod_cast hrs
      refine ⟨toSignedW_range w R hw hRlt, ⟨fun hc => absurd hc (by simp),
        fun hP => ?_⟩, fun hc => absurd hc (by simp)⟩
      exfalso
      rw [hsx, hsy] at hP
      rcases hP with h | h <;> omega
    · rw [if_pos (hcv.mpr hrs)]
      have hrsi : ((2:Int)^(w-1)) ≤ (R:Int) := by exact_mod_cast Nat.le_of_not_lt hrs
      refine ⟨toSignedW_range w U hw hUlt,
        ⟨fun _ => ?_, fun _ => rfl⟩, fun _ => ⟨fun _ => hUeq, fun hneg => ?_⟩⟩
      · rw [hsx, hsy]
        exact Or.inr (by omega)
      · rw [hsx, hsy] at hneg
        omega
  -- Case C : x non-negative, y negative: no overflow, no saturation
  · have hUeq : U = 2^(w-1) - 1 := if_pos hxs
    have hUlt' : U < 2^(w-1) := by omega
    have hcv : ¬(0 ≤ toSignedW w ((U ^^^ y) ||| notW w (y ^^^ R))) := by
      rw [hcid]
      simp [hUlt', hys]
    rw [if_neg hcv]
    have hsx : toSignedW w x = x := by
      unfold toSignedW
      rw [if_pos hxs]
    have hsy : toSignedW w y = (y:Int) - 2^w := by
      unfold toSignedW
      rw [if_neg hys]
    have hxsi : (x:Int) < (2:Int)^(w-1) := by exact_mod_cast hxs
    have hysi : ((2:Int)^(w-1)) ≤ (y:Int) := by exact_mod_cast Nat.le_of_not_lt hys
    refine ⟨toSignedW_range w R hw hRlt, ⟨fun hc => absurd hc (by simp),
      fun hP => ?_⟩, fun hc => absurd hc (by simp)⟩
    exfalso
    rw [hsx, hsy] at hP
    rcases hP with h | h <;> omega
  -- Case D : x negative, y non-negative: no overflow, no saturation
  · have hUeq : U = 2^(w-1) := if_neg hxs
    have hUlt' : ¬(U < 2^(w-1)) := by omega
    have hcv : ¬(0 ≤ toSignedW w ((U ^^^ y) ||| notW w (y ^^^ R))) := by
      rw [hcid]
      simp [hUlt', hys]
    rw [if_neg hcv]
    have hsx : toSignedW w x = (x:Int) - 2^w := by
      unfold toSignedW
      rw [if_neg hxs]
    have hsy : toSignedW w y = y := by
      unfold toSignedW
      rw [if_pos hys]
    have hxsi : ((2:Int)^(w-1)) ≤ (x:Int) := by exact_mod_cast Nat.le_of_not_lt hxs
    have hysi : (y:Int) < (2:Int)^(w-1) := by exact_mod_cast hys
    refine ⟨toSignedW_range w R hw hRlt, ⟨fun hc => absurd hc (by simp),
      fun hP => ?_⟩, fun hc => absurd hc (by simp)⟩
    exfalso
    rw [hsx, hsy] at hP
    rcases hP with h | h <;> omega
  -- Case B : both operands negative
  · have hUeq : U = 2^(w-1) := if_neg hxs
    have hUlt' : ¬(U < 2^(w-1)) := by omega
    have hcv : (0 ≤ toSignedW w ((U ^^^ y) ||| notW w (y ^^^ R))) ↔
        R < 2^(w-1) := by
      rw [hcid]
      simp [hUlt', hys]
    have hR' : R = x + y - 2^w := by
      rw [hRdef, Nat.mod_eq_sub_mod (by omega)]
      exact Nat.mod_eq_of_lt (by omega)
    have hsx : toSignedW w x = (x:Int) - 2^w := by
      unfold toSignedW
      rw [if_neg hxs]
    have hsy : toSignedW w y = (y:Int) - 2^w := by
      unfold toSignedW
      rw [if_neg hys]
    have hxsi : ((2:Int)^(w-1)) ≤ (x:Int) := by exact_mod_cast Nat.le_of_not_lt hxs
    have hysi : ((2:Int)^(w-1)) ≤ (y:Int) := by exact_mod_cast Nat.le_of_not_lt hys
    have hRi : (R:Int) = (x:Int) + y - 2^w := by
      rw [hR']
      have hge : 2^w ≤ x + y := by omega
      push_cast [hge]
      ring
    by_cases hrs : R < 2^(w-1)
    · rw [if_pos (hcv.mpr hrs)]
      have hrsi : (R:Int) < (2:Int)^(w-1) := by exact_mod_cast hrs
      refine ⟨toSignedW_range w U hw hUlt,
        ⟨fun _ => ?_, fun _ => rfl⟩, fun _ => ⟨fun hov => ?_, fun _ => hUeq⟩⟩
      · rw [hsx, hsy]
        exact Or.inl (by omega)
      · rw [hsx, hsy] at hov
        omega
    · rw [if_neg (fun hc => hrs (hcv.mp hc))]
      have hrsi : ((2:Int)^(w-1)) ≤ (R:Int) := by exact_mod_cast Nat.le_of_not_lt hrs
      refine ⟨toSignedW_range w R hw hRlt, ⟨fun hc => absurd hc (by simp),
        fun hP => ?_⟩, fun hc => absurd hc (by simp)⟩
      exfalso
      rw [hsx, hsy] at hP
      rcases hP with h | h <;> omega

/-- C4: for each signed width 8/16/32/64 and all operand patterns,
`sat_add` returns a value inside `[typeMin, typeMax]`, its saturation
flag is true iff the mathematical signed sum lies outside that range,
and on saturation the returned pattern is the clamped bound (`typeMax`
on positive overflow, `typeMin` on negative overflow). -/
theorem sat_add_spec (w x y : Nat) (hw : w = 8 ∨ w = 16 ∨ w = 32 ∨ w = 64)
    (hx : x < 2^w) (hy : y < 2^w) :
    (-(2^(w-1) : Int) ≤ toSignedW w (sat_add w x y).1 ∧
      toSignedW w (sat_add w x y).1 ≤ 2^(w-1) - 1) ∧
    ((sat_add w x y).2 = true ↔
      (toSignedW w x + toSignedW w y < -(2^(w-1)) ∨
       (2^(w-1) : Int) - 1 < toSignedW w x + toSignedW w y)) ∧
    ((sat_add w x y).2 = true →
      ((2^(w-1) : Int) - 1 < toSignedW w x + toSignedW w y →
        (sat_add w x y).1 = 2^(w-1) - 1) ∧
      (toSignedW w x + toSignedW w y < -(2^(w-1)) →
        (sat_add w x y).1 = 2^(w-1))) :=
  sat_add_correct w x y (by omega) hx hy

/-- Witness for C4: at width 8, `100 + 100` saturates to `127`. -/
theorem sat_add_spec_witness :
    (sat_add 8 100 100).2 = true ∧ (sat_add 8 100 100).1 = 2^7 - 1 :=
  have h := sat_add_spec 8 100 100 (Or.inl rfl) (by decide) (by decide)
  ⟨h.2.1.mpr (Or.inr (by decide)),
   (h.2.2 (h.2.1.mpr (Or.inr (by decide)))).1 (by decide)⟩

theorem writeBytes_apply_ne (n : Nat) :
    ∀ (m : Nat → Nat) (a v x : Nat), (x < a ∨ a + n ≤ x) →
      writeBytes m a n v x = m x := by
  induction n with
  | zero => intro m a v x _; rfl
  | succ n ih =>
    intro m a v x hx
    unfold writeBytes
    rw [ih _ (a+1) _ x (by omega)]
    have : x ≠ a := by omega
    simp [this]

theorem readBytes_congr (n : Nat) :
    ∀ (m m' : Nat → Nat) (a : Nat), (∀ i, i < n → m (a + i) = m' (a + i)) →
      readBytes m a n = readBytes m' a n := by
  induction n with
  | zero => intro m m' a _; rfl
  | succ n ih =>
    intro m m' a h
    unfold readBytes
    rw [ih m m' (a+1) (fun i hi => by
      have := h (i+1) (by omega)
      have hadd : a + 1 + i = a + (i + 1) := by omega
      rw [hadd]
      exact this)]
    have h0 := h 0 (by omega)
    simp at h0
    rw [h0]

theorem readBytes_writeBytes_outside (n k : Nat) (m : Nat → Nat) (a v b : Nat)
    (h : b + k ≤ a ∨ a + n ≤ b) :
    readBytes (writeBytes m a n v) b k = readBytes m b k := by
  apply readBytes_congr
  intro i hi
  exact writeBytes_apply_ne n m a v (b + i) (by omega)

theorem readBytes_writeBytes_same (n : Nat) :
    ∀ (m : Nat → Nat) (a v : Nat),
      readBytes (writeBytes m a n v) a n = v % 256^n := by
  induction n with
  | zero =>
    intro m a v
    simp [readBytes, Nat.mod_one]
  | succ n ih =>
    intro m a v
    unfold writeBytes readBytes
    rw [ih _ (a+1) (v / 256)]
    rw [writeBytes_apply_ne n _ (a+1) _ a (by omega)]
    simp
    rw [pow_succ']
    rw [Nat.mod_mul]

theorem readBytes_lt (n : Nat) :
    ∀ (m : Nat → Nat) (a : Nat), (∀ x, m x < 256) →
      readBytes m a n < 256^n := by
  induction n with
  | zero => intro m a _; simp [readBytes]
  | succ n ih =>
    intro m a h
    unfold readBytes
    have h1 := h a
    have h2 := ih m (a+1) h
    rw [pow_succ']
    omega

theorem writeBytes_bytes_lt (n : Nat) :
    ∀ (m : Nat → Nat) (a v : Nat), (∀ x, m x < 256) →
      ∀ x, writeBytes m a n v x < 256 := by
  induction n with
  | zero => intro m a v h x; exact h x
  | succ n ih =>
    intro m a v h x
    unfold writeBytes
    apply ih
    intro y
    by_cases hy : y = a
    · simp [hy]
      omega
    · simp [hy]
      exact h y

theorem mul_off_lt {j i : Nat} (sb : Nat) (h : j < i) : j * sb + sb ≤ i * sb := by
  have := Nat.mul_le_mul_right sb (show j + 1 ≤ i from h)
  rw [Nat.succ_mul] at this
  exact this

theorem elt_writeElt_other_reg (s : VState) (r vd j a v : Nat) (hr : r ≠ vd)
    (hj : j * s.sewB + s.sewB ≤ 16) (ha : a * s.sewB + s.sewB ≤ 16) :
    (s.writeElt vd a v).elt r j = s.elt r j := by
  unfold VState.elt VState.writeElt
  dsimp only
  apply readBytes_writeBytes_outside
  rcases Nat.lt_or_ge r vd with h | h
  · left
    have h16 : r * 16 + 16 ≤ vd * 16 := by omega
    omega
  · right
    have hgt : vd < r := by omega
    have h16 : vd * 16 + 16 ≤ r * 16 := by omega
    omega

theorem elt_writeElt_other_elt (s : VState) (vd j a v : Nat) (hne : j ≠ a) :
    (s.writeElt vd a v).elt vd j = s.elt vd j := by
  unfold VState.elt VState.writeElt
  dsimp only
  apply readBytes_writeBytes_outside
  rcases Nat.lt_or_ge j a with h | h
  · left
    have := mul_off_lt s.sewB h
    omega
  · right
    have hgt : a < j := by omega
    have := mul_off_lt s.sewB hgt
    omega

theorem elt_writeElt_same (s : VState) (vd a v : Nat) (hv : v < 256 ^ s.sewB) :
    (s.writeElt vd a v).elt vd a = v := by
  unfold VState.elt VState.writeElt
  dsimp only
  rw [readBytes_writeBytes_same]
  exact Nat.mod_eq_of_lt hv

theorem vrgatherBody_fields (vd vs1 vs2 : Nat) (s : VState) (i : Nat) :
    (vrgatherBody vd vs1 vs2 s i).sewB = s.sewB ∧
    (vrgatherBody vd vs1 vs2 s i).vlmax = s.vlmax ∧
    (vrgatherBody vd vs1 vs2 s i).vl = s.vl := ⟨rfl, rfl, rfl⟩

theorem gather_foldl_fields (vd vs1 vs2 : Nat) (l : List Nat) :
    ∀ s : VState,
      (l.foldl (vrgatherBody vd vs1 vs2) s).sewB = s.sewB ∧
      (l.foldl (vrgatherBody vd vs1 vs2) s).vlmax = s.vlmax := by
  induction l with
  | nil => intro s; exact ⟨rfl, rfl⟩
  | cons a l ih =>
    intro s
    simpa using ih (vrgatherBody vd vs1 vs2 s a)

theorem vrgatherBody_bytes (vd vs1 vs2 : Nat) (s : VState) (i : Nat)
    (h : ∀ x, s.vmem x < 256) :
    ∀ x, (vrgatherBody vd vs1 vs2 s i).vmem x < 256 := by
  intro x
  unfold vrgatherBody VState.writeElt
  dsimp only
  exact writeBytes_bytes_lt _ _ _ _ h x

theorem gather_fold_elt_frame (vd vs1 vs2 : Nat) :
    ∀ (n a : Nat) (s : VState) (i : Nat), i < a →
      ((List.range' a n).foldl (vrgatherBody vd vs1 vs2) s).elt vd i =
        s.elt vd i := by
  intro n
  induction n with
  | zero => intro a s i _; rfl
  | succ n ih =>
    intro a s i hia
    rw [List.range'_succ, List.foldl_cons]
    rw [ih (a+1) _ i (by omega)]
    show (vrgatherBody vd vs1 vs2 s a).elt vd i = s.elt vd i
    unfold vrgatherBody
    dsimp only
    show (s.writeElt vd a _).elt vd i = s.elt vd i
    exact elt_writeElt_other_elt s vd i a _ (by omega)

theorem gather_fold (vd vs1 vs2 : Nat) :
    ∀ (n a : Nat) (s : VState) (i : Nat),
      (∀ x, s.vmem x < 256) → 0 < s.sewB →
      (a + n) * s.sewB ≤ 16 → s.vlmax * s.sewB ≤ 16 →
      vd ≠ vs1 → vd ≠ vs2 →
      a ≤ i → i < a + n →
      ((List.range' a n).foldl (vrgatherBody vd vs1 vs2) s).elt vd i =
        (if s.elt vs1 i ≥ s.vlmax then 0 else s.elt vs2 (s.elt vs1 i)) := by
  intro n
  induction n with
  | zero => intro a s i _ _ _ _ _ _ h1 h2; omega
  | succ n ih =>
    intro a s i hbytes hsb hbound hvlmax hne1 hne2 hai hin
    rw [List.range'_succ, List.foldl_cons]
    have hoff : ∀ j, j < a + (n+1) → j * s.sewB + s.sewB ≤ 16 := fun j hj =>
      le_trans (mul_off_lt s.sewB hj) hbound
    have hsrc : ∀ r j, r ≠ vd → j * s.sewB + s.sewB ≤ 16 →
        (vrgatherBody vd vs1 vs2 s a).elt r j = s.elt r j := by
      intro r j hr hj
      show (s.writeElt vd a _).elt r j = s.elt r j
      exact elt_writeElt_other_reg s r vd j a _ hr hj (hoff a (by omega))
    rcases Nat.eq_or_lt_of_le hai with heq | hlt
    · subst heq
      rw [gather_fold_elt_frame vd vs1 vs2 n (a+1)
        (vrgatherBody vd vs1 vs2 s a) a (by omega)]
      have hvlt : (if s.elt vs1 a ≥ s.vlmax then 0
          else s.elt vs2 (s.elt vs1 a)) < 256 ^ s.sewB := by
        by_cases hc : s.elt vs1 a ≥ s.vlmax
        · simp [hc]
        · simp [hc]
          exact readBytes_lt _ _ _ hbytes
      show (s.writeElt vd a (if s.elt vs1 a ≥ s.vlmax then 0
        else s.elt vs2 (s.elt vs1 a))).elt vd a = _
      exact elt_writeElt_same s vd a _ hvlt
    · have hbytes1 : ∀ x, (vrgatherBody vd vs1 vs2 s a).vmem x < 256 :=
        vrgatherBody_bytes vd vs1 vs2 s a hbytes
      have hadd : a + 1 + n = a + (n + 1) := by omega
      rw [ih (a+1) (vrgatherBody vd vs1 vs2 s a) i hbytes1 hsb
        (by rw [hadd]; exact hbound) hvlmax hne1 hne2 (by omega) (by omega)]
      show (if (vrgatherBody vd vs1 vs2 s a).elt vs1 i ≥ s.vlmax then 0
          else (vrgatherBody vd vs1 vs2 s a).elt vs2
            ((vrgatherBody vd vs1 vs2 s a).elt vs1 i)) = _
      rw [hsrc vs1 i (Ne.symm hne1) (hoff i hin)]
      by_cases hc : s.elt vs1 i ≥ s.vlmax
      · simp [hc]
      · have hidx : s.elt vs1 i < s.vlmax := Nat.lt_of_not_le hc
        have hbnd : (s.elt vs1 i) * s.sewB + s.sewB ≤ 16 :=
          le_trans (mul_off_lt s.sewB hidx) hvlmax
        rw [hsrc vs2 _ (Ne.symm hne2) hbnd]

/-- C8: for every element `i` in the active range `[vstart, vl)` at the
configured element width, `vrgather.vv` writes `vs2[vs1[i]]` into
destination element `i` when the index `vs1[i]` is below the configured
maximum vector length `vlmax`, and zero when `vs1[i] ≥ vlmax`; the
executor is a total function — an out-of-range index never faults.
(The destination register is distinct from both sources, as the byte
invariant and non-aliasing hypotheses state.) -/
theorem vrgather_policy (s : VState) (vd vs1 vs2 i : Nat)
    (hbytes : ∀ x, s.vmem x < 256) (hsb : 0 < s.sewB)
    (hvl : s.vl * s.sewB ≤ 16) (hvlmax : s.vlmax * s.sewB ≤ 16)
    (h1 : vd ≠ vs1) (h2 : vd ≠ vs2)
    (hlo : s.vstart ≤ i) (hhi : i < s.vl) :
    (execVRGATHER vd vs1 vs2 s).elt vd i =
      if s.elt vs1 i ≥ s.vlmax then 0 else s.elt vs2 (s.elt vs1 i) := by
  unfold execVRGATHER
  have hn : s.vstart + (s.vl - s.vstart) = s.vl := by omega
  exact gather_fold vd vs1 vs2 (s.vl - s.vstart) s.vstart s i hbytes hsb
    (by rw [hn]; exact hvl) hvlmax h1 h2 hlo (by omega)

/-- Witness for C8: SEW=1 byte, `vl = 2`, `vlmax = 16`; index 3 gathers
`vs2[3] = 7`, the out-of-range index 200 yields 0. -/
theorem vrgather_policy_witness :
    (execVRGATHER 4 1 2 ⟨fun a => if a = 16 then 3 else if a = 17 then 200
        else if a = 35 then 7 else 0, 0, 2, 16, 1⟩).elt 4 0 = 7 ∧
    (execVRGATHER 4 1 2 ⟨fun a => if a = 16 then 3 else if a = 17 then 200
        else if a = 35 then 7 else 0, 0, 2, 16, 1⟩).elt 4 1 = 0 := by
  have hbytes : ∀ x, (⟨fun a => if a = 16 then 3 else if a = 17 then 200
      else if a = 35 then 7 else 0, 0, 2, 16, 1⟩ : VState).vmem x < 256 := by
    intro x
    dsimp only
    split
    · omega
    split
    · omega
    split
    · omega
    · omega
  constructor
  · have h0 := vrgather_policy _ 4 1 2 0 hbytes (by decide) (by decide)
      (by decide) (by decide) (by decide) (by decide) (by decide)
    exact h0.trans (by decide)
  · have h1 := vrgather_policy _ 4 1 2 1 hbytes (by decide) (by decide)
      (by decide) (by decide) (by decide) (by decide) (by decide)
    exact h1.trans (by decide)
